import Mathlib

/-!
Shallow embedding of the `regex-nfa` translator (`src/translator.rs`):
a Thompson-construction compiler from a regular-expression AST to a
nondeterministic finite automaton, together with an acceptance semantics
used to state language-level properties of the produced automata.
-/

namespace RegexNfa

/-- A transition is an edge `(fromState, toState, optional symbol)`;
`none` as the symbol is an epsilon transition. -/
abbrev Transition := Nat × Nat × Option Char

/-- Modelled from the spec: the `Automaton` data structure (spec §3, §4.1);
its module (`automaton.rs`) is not among the staged source files, only its
callers in `translator.rs` are.  It owns a state count, a transition list,
a start state and the accepting-state set (kept here as a duplicate-free
list; the translator only ever reads it when it is a singleton). -/
structure Automaton where
  states : Nat
  transitions : List Transition
  start_state : Nat
  accepting_states : List Nat
deriving DecidableEq, Repr

/-- Modelled from the spec: "create empty (0 states, no transitions,
undefined start, empty accepting set)" — the undefined start is represented
as 0; every builder sets it before the automaton is read. -/
def Automaton.new : Automaton :=
  { states := 0, transitions := [], start_state := 0, accepting_states := [] }

/-- Modelled from the spec: "add state → fresh unique id, increments state
count"; returns the updated automaton and the fresh id. -/
def Automaton.add_state (a : Automaton) : Automaton × Nat :=
  ({ a with states := a.states + 1 }, a.states)

/-- Modelled from the spec: "set start state (single-writer; last call
wins)". -/
def Automaton.set_start_state (a : Automaton) (s : Nat) : Automaton :=
  { a with start_state := s }

/-- Modelled from the spec: "mark / unmark accepting"; membership in the
accepting set. -/
def Automaton.set_accepting (a : Automaton) (s : Nat) (accepting : Bool) : Automaton :=
  if accepting then
    { a with accepting_states :=
        if s ∈ a.accepting_states then a.accepting_states else a.accepting_states ++ [s] }
  else
    { a with accepting_states := a.accepting_states.filter (· ≠ s) }

/-- Modelled from the spec: "clear accepting (resets set to empty)". -/
def Automaton.clear_accepting (a : Automaton) : Automaton :=
  { a with accepting_states := [] }

/-- Modelled from the spec: "add transition(from, to, optional symbol) —
supports several transitions between the same pair". -/
def Automaton.add_transition (a : Automaton) (f t : Nat) (symbol : Option Char) : Automaton :=
  { a with transitions := a.transitions ++ [(f, t, symbol)] }

/-- Shift both endpoints of a transition by `o`. -/
def shiftT (o : Nat) (tr : Transition) : Transition :=
  (tr.1 + o, tr.2.1 + o, tr.2.2)

/-- Modelled from the spec: "merge(other): appends other's states (by
bumping the state counter) and appends other's transitions/accepting
markers rewritten with ids shifted by the pre-merge state count; does NOT
auto-wire glue edges". -/
def Automaton.add_states_and_transitions (a other : Automaton) : Automaton :=
  { states := a.states + other.states,
    transitions := a.transitions ++ other.transitions.map (shiftT a.states),
    start_state := a.start_state,
    accepting_states := a.accepting_states ++ other.accepting_states.map (· + a.states) }

/-! ## The AST consumed by the translator

The subset of `regex_syntax::ast` that `translator.rs` inspects, with one
constructor per shape the code distinguishes.  Node kinds the translator
never descends into (`Empty`, `Flags`, `Dot`, `Assertion`) are plain
constructors; they exist only to be carried inside `UnsupportedAst`. -/

/-- One item of a bracketed class set (`regex_syntax::ast::ClassSetItem`):
only the two-endpoint `Range` shape is inspected; every other shape is a
single unsupported constructor. -/
inductive ClassSetItem where
  | Range (s e : Char)
  | OtherItem
deriving Repr

/-- A bracketed class set (`regex_syntax::ast::ClassSet`): a single item or
an (unsupported) binary set operation. -/
inductive ClassSet where
  | Item (item : ClassSetItem)
  | BinaryOp
deriving Repr

/-- A character class (`regex_syntax::ast::Class`): bracketed, or one of
the (unsupported) Unicode/Perl classes. -/
inductive Class where
  | Bracketed (kind : ClassSet)
  | OtherClass
deriving Repr

/-- A repetition range (`regex_syntax::ast::RepetitionRange`): bounded
repetition counts, all unsupported by the translator. -/
inductive RepetitionRange where
  | Exactly (m : Nat)
  | AtLeast (m : Nat)
  | Bounded (m n : Nat)
deriving Repr

/-- A repetition operator kind (`regex_syntax::ast::RepetitionKind`). -/
inductive RepetitionKind where
  | ZeroOrOne
  | ZeroOrMore
  | OneOrMore
  | Range (range : RepetitionRange)
deriving Repr

/-- The regular-expression AST (`regex_syntax::ast::Ast`), restricted to
the constructor shapes `build_tree` distinguishes.  `Repetition` carries
the operator kind, the greediness flag (never read by the translator) and
the repeated sub-expression. -/
inductive Ast where
  | Empty
  | Flags
  | Literal (c : Char)
  | Dot
  | Assertion
  | Class (class_ast : Class)
  | Repetition (op : RepetitionKind) (greedy : Bool) (ast : Ast)
  | Group (ast : Ast)
  | Alternation (asts : List Ast)
  | Concat (asts : List Ast)
deriving Repr

/-- The translator's error type (`TranslatorError` in `translator.rs`):
one unsupported-construct error per AST sub-layer, each carrying the
offending node, plus propagated parse errors (whose payload, an external
parser error value, is not modelled). -/
inductive TranslatorError where
  | UnsupportedAst (ast : Ast)
  | UnsupportedClass (class_ast : Class)
  | UnsupportedClassSet (class_set : ClassSet)
  | UnsupportedClassSetItem (class_set_item : ClassSetItem)
  | ParserError
deriving Repr

/-- Outcome of a translator call.  `ok`/`error` are the two sides of the
Rust `Result`; `panicked` models a Rust `panic!` / failed `assert_eq!`
(an uncontrolled abort, distinct from every returned value). -/
inductive TResult where
  | ok (a : Automaton)
  | error (e : TranslatorError)
  | panicked
deriving Repr

/-! ## The builders (`translator.rs`)

Each Rust builder that recurses into child nodes is split into the
translation of the children (done by `build_tree` itself, see below) and a
fold over the already-translated children; the fold stops at the first
non-`ok` child, so the composed value is the same as the Rust control flow
that builds each child inside the loop and returns early. -/

/-- `build_literal` (translator.rs:225): two states, one transition per
atom from the start state to the sole accepting end state. -/
def build_literal (atoms : List Char) : TResult :=
  let p0 := Automaton.new.add_state
  let literal_automaton := p0.1
  let start_state := p0.2
  let p1 := literal_automaton.add_state
  let literal_automaton := p1.1
  let end_state := p1.2
  let literal_automaton := literal_automaton.set_accepting end_state true
  let literal_automaton := literal_automaton.set_start_state start_state
  let literal_automaton :=
    atoms.foldl (fun a atom => a.add_transition start_state end_state (some atom)) literal_automaton
  .ok literal_automaton

/-- `build_class_set_range` (translator.rs:82): both endpoint characters
are cast to `u8` (truncation modulo 256, `as u8` in Rust) and the literal
builder is applied to every character of the inclusive `u8` range. -/
def build_class_set_range (start_c end_c : Char) : TResult :=
  let start_atom := start_c.toNat % 256
  let end_atom := end_c.toNat % 256
  build_literal ((List.range' start_atom (end_atom + 1 - start_atom)).map Char.ofNat)

/-- `build_class` (translator.rs:65): only a bracketed single-range class
is supported; every other layer yields its own unsupported error. -/
def build_class (class_ast : Class) : TResult :=
  match class_ast with
  | .Bracketed (.Item (.Range s e)) => build_class_set_range s e
  | .Bracketed (.Item item) => .error (.UnsupportedClassSetItem item)
  | .Bracketed kind => .error (.UnsupportedClassSet kind)
  | unsupported => .error (.UnsupportedClass unsupported)

/-- The loop body of `build_concatenation` (translator.rs:98), folded over
the already-translated children.  `concat_end_state` is the running end
state; each iteration asserts the child has exactly one accepting state
(`panicked` otherwise), merges it at the current offset, wires an epsilon
edge from the running end to the child's start, and re-derives the single
accepting state. -/
def build_concat_go : Automaton → Nat → List TResult → TResult
  | concat_automaton, _, [] => .ok concat_automaton
  | concat_automaton, concat_end_state, r :: rest =>
    match r with
    | .error e => .error e
    | .panicked => .panicked
    | .ok append_automaton =>
      match append_automaton.accepting_states with
      | [append_end_state] =>
        let append_start_state := append_automaton.start_state
        let concat_append_offset := concat_automaton.states
        let concat_automaton := concat_automaton.add_states_and_transitions append_automaton
        let concat_automaton :=
          concat_automaton.add_transition concat_end_state
            (append_start_state + concat_append_offset) none
        let concat_end_state := append_end_state + concat_append_offset
        let concat_automaton :=
          (concat_automaton.clear_accepting).set_accepting concat_end_state true
        build_concat_go concat_automaton concat_end_state rest
      | _ => .panicked

/-- `build_concatenation` (translator.rs:91): start from a fresh one-state
automaton whose single state is both the start and the running end, then
fold the children in order. -/
def build_concatenation (children : List TResult) : TResult :=
  let p0 := Automaton.new.add_state
  let concat_automaton := p0.1
  let concat_start_state := p0.2
  let concat_automaton := concat_automaton.set_start_state concat_start_state
  build_concat_go concat_automaton concat_start_state children

/-- The loop body of `build_alternation` (translator.rs:190), folded over
the already-translated alternatives.  `s`/`e` are the alternation's two
boundary states; each iteration asserts the alternative has exactly one
accepting state, merges it at the current offset and wires
`s → altStart` and `altEnd → e` epsilon edges. -/
def build_alt_go : Automaton → Nat → Nat → List TResult → TResult
  | alternation_automaton, _, _, [] => .ok alternation_automaton
  | alternation_automaton, s, e, r :: rest =>
    match r with
    | .error err => .error err
    | .panicked => .panicked
    | .ok alternative_automaton =>
      match alternative_automaton.accepting_states with
      | [alternative_end_state] =>
        let alternative_start_state := alternative_automaton.start_state
        let offset := alternation_automaton.states
        let alternation_automaton :=
          alternation_automaton.add_states_and_transitions alternative_automaton
        let alternation_automaton :=
          alternation_automaton.add_transition s (alternative_start_state + offset) none
        let alternation_automaton :=
          alternation_automaton.add_transition (alternative_end_state + offset) e none
        build_alt_go alternation_automaton s e rest
      | _ => .panicked

/-- `build_alternation` (translator.rs:185): two fresh boundary states,
the fold over the alternatives, then the first boundary state becomes the
start and the second the sole accepting state. -/
def build_alternation (children : List TResult) : TResult :=
  let p0 := Automaton.new.add_state
  let alternation_automaton := p0.1
  let s := p0.2
  let p1 := alternation_automaton.add_state
  let alternation_automaton := p1.1
  let e := p1.2
  match build_alt_go alternation_automaton s e children with
  | .ok acc => .ok (((acc.set_start_state s).clear_accepting).set_accepting e true)
  | r => r

/-- `build_repetition` (translator.rs:130): two fresh boundary states
around the merged inner fragment, the two shared epsilon edges
`S → innerStart` and `innerEnd → E`, then per-operator epsilon edges; a
bounded-count operator kind hits the Rust `panic!` (translator.rs:174),
modelled as `panicked`.  The inner child is translated before the operator
kind is inspected, so a failing child propagates its own outcome. -/
def build_repetition (op : RepetitionKind) (greedy : Bool) (inner : TResult) : TResult :=
  let p0 := Automaton.new.add_state
  let repetition_automaton := p0.1
  let repetition_start_state := p0.2
  let p1 := repetition_automaton.add_state
  let repetition_automaton := p1.1
  let repetition_end_state := p1.2
  let repetition_to_inner_offset := repetition_automaton.states
  match inner with
  | .error e => .error e
  | .panicked => .panicked
  | .ok inner_automaton =>
    match inner_automaton.accepting_states with
    | [inner_automaton_end_state] =>
      let inner_automaton_start_state := inner_automaton.start_state
      let repetition_automaton :=
        repetition_automaton.add_states_and_transitions inner_automaton
      let repetition_automaton :=
        repetition_automaton.add_transition repetition_start_state
          (inner_automaton_start_state + repetition_to_inner_offset) none
      let repetition_automaton :=
        repetition_automaton.add_transition
          (inner_automaton_end_state + repetition_to_inner_offset)
          repetition_end_state none
      match op with
      | .OneOrMore =>
        let repetition_automaton :=
          repetition_automaton.add_transition repetition_end_state repetition_start_state none
        .ok (((repetition_automaton.set_start_state repetition_start_state).clear_accepting).set_accepting
          repetition_end_state true)
      | .ZeroOrMore =>
        let repetition_automaton :=
          repetition_automaton.add_transition repetition_start_state repetition_end_state none
        let repetition_automaton :=
          repetition_automaton.add_transition repetition_end_state repetition_start_state none
        .ok (((repetition_automaton.set_start_state repetition_start_state).clear_accepting).set_accepting
          repetition_end_state true)
      | .ZeroOrOne =>
        let repetition_automaton :=
          repetition_automaton.add_transition repetition_start_state repetition_end_state none
        .ok (((repetition_automaton.set_start_state repetition_start_state).clear_accepting).set_accepting
          repetition_end_state true)
      | .Range _ => .panicked
    | _ => .panicked

mutual

/-- `build_tree` (translator.rs:53): dispatch on the AST node kind;
unsupported kinds yield `UnsupportedAst` carrying the node. -/
def build_tree : Ast → TResult
  | .Concat asts => build_concatenation (build_tree_list asts)
  | .Repetition op greedy ast => build_repetition op greedy (build_tree ast)
  | .Literal c => build_literal [c]
  | .Alternation asts => build_alternation (build_tree_list asts)
  | .Group ast => build_tree ast
  | .Class class_ast => build_class class_ast
  | unsupported => .error (.UnsupportedAst unsupported)

/-- Translation of a child list, one child at a time in order. -/
def build_tree_list : List Ast → List TResult
  | [] => []
  | ast :: rest => build_tree ast :: build_tree_list rest

end

/-- Modelled from the spec: the external parsing collaborator (spec §6)
that turns regex text into an AST; it is not part of this repository
(`regex_syntax::ast::parse::Parser`).  Only the case the development needs
is modelled: on the empty pattern the parser succeeds and produces the
`Empty` AST node.  Every other input is left unmodelled and mapped to a
parse-failure placeholder. -/
def parse : List Char → Except Unit Ast
  | [] => .ok .Empty
  | _ => .error ()

/-- `translate` (translator.rs:46): parse, then build the tree; a parse
error is wrapped in `ParserError`. -/
def translate (s : List Char) : TResult :=
  match parse s with
  | .ok ast_tree => build_tree ast_tree
  | .error _ => .error .ParserError

/-! ## Acceptance semantics

The standard language of an NFA with epsilon transitions, used to state
language-level claims about the produced automata. -/

/-- `Steps a s w t`: from state `s` the automaton `a` can consume exactly
the word `w` and land in state `t`, following symbol and epsilon
transitions. -/
inductive Steps (a : Automaton) : Nat → List Char → Nat → Prop where
  | refl (s : Nat) : Steps a s [] s
  | eps {s t u : Nat} {w : List Char} :
      ((s, t, (none : Option Char)) : Transition) ∈ a.transitions →
      Steps a t w u → Steps a s w u
  | symb {s t u : Nat} {c : Char} {w : List Char} :
      ((s, t, some c) : Transition) ∈ a.transitions →
      Steps a t w u → Steps a s (c :: w) u

/-- `Accepts a w`: some accepting state is reachable from the start state
consuming exactly `w`. -/
def Accepts (a : Automaton) (w : List Char) : Prop :=
  ∃ f, Steps a a.start_state w f ∧ f ∈ a.accepting_states

/-- The language of an automaton, as a set of words. -/
def Lang (a : Automaton) : Set (List Char) := { w | Accepts a w }

mutual

/-- A node contains no concatenation with an empty child sequence. -/
def noEmptyConcat : Ast → Bool
  | .Concat asts => !asts.isEmpty && noEmptyConcatList asts
  | .Alternation asts => noEmptyConcatList asts
  | .Repetition _ _ ast => noEmptyConcat ast
  | .Group ast => noEmptyConcat ast
  | _ => true

/-- List form of `noEmptyConcat`. -/
def noEmptyConcatList : List Ast → Bool
  | [] => true
  | ast :: rest => noEmptyConcat ast && noEmptyConcatList rest

end

/-- Total state count of a list of fragments. -/
def sumStates : List Automaton → Nat
  | [] => 0
  | f :: rest => f.states + sumStates rest

/-- The single accepting state of a fragment whose accepting set is a
singleton. -/
def fragEnd (f : Automaton) : Nat := f.accepting_states.headI

/-- The transition list the alternation fold produces: for each fragment,
its transitions shifted by the running offset, an entry edge `s → start`
and an exit edge `end → e`. -/
def altTransG (s e : Nat) : List Automaton → Nat → List Transition
  | [], _ => []
  | f :: rest, o =>
      f.transitions.map (shiftT o) ++
        ((s, f.start_state + o, none) : Transition) ::
        ((fragEnd f + o, e, none) : Transition) :: altTransG s e rest (o + f.states)

/-- The accepting markers the alternation fold accumulates (cleared by the
wrapper afterwards). -/
def altAccG : List Automaton → Nat → List Nat
  | [], _ => []
  | f :: rest, o => f.accepting_states.map (· + o) ++ altAccG rest (o + f.states)

/-- The state `s` lies inside the block of one of the fragments (placed at
consecutive offsets starting at `o`), and from its local position inside
that fragment the fragment can consume `w` to its accepting state. -/
def InBlockAcc : List Automaton → Nat → Nat → List Char → Prop
  | [], _, _, _ => False
  | f :: rest, o, s, w =>
      (o ≤ s ∧ s < o + f.states ∧ Steps f (s - o) w (fragEnd f)) ∨
        InBlockAcc rest (o + f.states) s w

/-- Some fragment of the list accepts `w`. -/
def AltAcc (frags : List Automaton) (w : List Char) : Prop :=
  ∃ f ∈ frags, Accepts f w

/-! ## Concrete fragments used by witnesses -/

/-- The fragment `build_tree` produces for the literal `a`. -/
def litA : Automaton := ⟨2, [(0, 1, some 'a')], 0, [1]⟩

/-- The automaton `build_tree` produces for the alternation `a|b`. -/
def altAB : Automaton :=
  ⟨6, [(2, 3, some 'a'), (0, 2, none), (3, 1, none),
       (4, 5, some 'b'), (0, 4, none), (5, 1, none)], 0, [1]⟩

/-- The automaton `build_tree` produces for the alternation `b|a`. -/
def altBA : Automaton :=
  ⟨6, [(2, 3, some 'b'), (0, 2, none), (3, 1, none),
       (4, 5, some 'a'), (0, 4, none), (5, 1, none)], 0, [1]⟩

/-! ## Bound invariant: every referenced state id is below the state count -/

/-- All state ids an automaton references (start, transition endpoints,
accepting markers) are strictly below its state count. -/
structure Bnd (a : Automaton) : Prop where
  hstart : a.start_state < a.states
  htrans : ∀ tr ∈ a.transitions, tr.1 < a.states ∧ tr.2.1 < a.states
  hacc : ∀ x ∈ a.accepting_states, x < a.states

/-! ## Component lemmas for the automaton operations -/

@[simp] theorem states_add_transition (a : Automaton) (f t : Nat) (sym : Option Char) :
    (a.add_transition f t sym).states = a.states := rfl

@[simp] theorem transitions_add_transition (a : Automaton) (f t : Nat) (sym : Option Char) :
    (a.add_transition f t sym).transitions = a.transitions ++ [(f, t, sym)] := rfl

@[simp] theorem start_add_transition (a : Automaton) (f t : Nat) (sym : Option Char) :
    (a.add_transition f t sym).start_state = a.start_state := rfl

@[simp] theorem accepting_add_transition (a : Automaton) (f t : Nat) (sym : Option Char) :
    (a.add_transition f t sym).accepting_states = a.accepting_states := rfl

@[simp] theorem states_set_start (a : Automaton) (s : Nat) :
    (a.set_start_state s).states = a.states := rfl

@[simp] theorem transitions_set_start (a : Automaton) (s : Nat) :
    (a.set_start_state s).transitions = a.transitions := rfl

@[simp] theorem start_set_start (a : Automaton) (s : Nat) :
    (a.set_start_state s).start_state = s := rfl

@[simp] theorem accepting_set_start (a : Automaton) (s : Nat) :
    (a.set_start_state s).accepting_states = a.accepting_states := rfl

@[simp] theorem states_merge (a b : Automaton) :
    (a.add_states_and_transitions b).states = a.states + b.states := rfl

@[simp] theorem transitions_merge (a b : Automaton) :
    (a.add_states_and_transitions b).transitions =
      a.transitions ++ b.transitions.map (shiftT a.states) := rfl

@[simp] theorem start_merge (a b : Automaton) :
    (a.add_states_and_transitions b).start_state = a.start_state := rfl

@[simp] theorem accepting_merge (a b : Automaton) :
    (a.add_states_and_transitions b).accepting_states =
      a.accepting_states ++ b.accepting_states.map (· + a.states) := rfl

@[simp] theorem states_clear_set (a : Automaton) (s : Nat) :
    ((a.clear_accepting).set_accepting s true).states = a.states := by
  simp [Automaton.clear_accepting, Automaton.set_accepting]

@[simp] theorem transitions_clear_set (a : Automaton) (s : Nat) :
    ((a.clear_accepting).set_accepting s true).transitions = a.transitions := by
  simp [Automaton.clear_accepting, Automaton.set_accepting]

@[simp] theorem start_clear_set (a : Automaton) (s : Nat) :
    ((a.clear_accepting).set_accepting s true).start_state = a.start_state := by
  simp [Automaton.clear_accepting, Automaton.set_accepting]

@[simp] theorem accepting_clear_set (a : Automaton) (s : Nat) :
    ((a.clear_accepting).set_accepting s true).accepting_states = [s] := by
  simp [Automaton.clear_accepting, Automaton.set_accepting]

theorem build_tree_list_eq_map : ∀ asts : List Ast, build_tree_list asts = asts.map build_tree
  | [] => rfl
  | _ :: rest => by rw [build_tree_list, build_tree_list_eq_map rest, List.map]

/-- The literal builder, evaluated. -/
theorem build_literal_eq (atoms : List Char) :
    build_literal atoms =
      .ok ⟨2, atoms.map (fun c => (0, 1, some c)), 0, [1]⟩ := by
  have fold : ∀ (l : List Char) (a : Automaton),
      l.foldl (fun a atom => a.add_transition 0 1 (some atom)) a =
        { a with transitions := a.transitions ++ l.map (fun c => (0, 1, some c)) } := by
    intro l
    induction l with
    | nil => intro a; simp [Automaton.add_transition]
    | cons c rest ih =>
      intro a
      simp only [List.foldl_cons, ih, List.map_cons]
      simp [Automaton.add_transition]
  simp only [build_literal, Automaton.new, Automaton.add_state, Automaton.set_accepting,
    Automaton.set_start_state, fold]
  rfl

/-- Bounds are preserved by the concatenation fold. -/
theorem concat_go_bnd :
    ∀ (l : List TResult) (acc : Automaton) (endS : Nat),
      Bnd acc → endS < acc.states →
      (∀ r ∈ l, ∀ f, r = .ok f → Bnd f) →
      ∀ a, build_concat_go acc endS l = .ok a → Bnd a
  | [], acc, endS, hb, _, _, a, h => by
    simp only [build_concat_go] at h
    cases h
    exact hb
  | r :: rest, acc, endS, hb, hend, hch, a, h => by
    simp only [build_concat_go] at h
    cases r with
    | error e => simp at h
    | panicked => simp at h
    | ok app =>
      dsimp only at h
      have happ : Bnd app := hch (.ok app) (List.mem_cons_self _ _) app rfl
      cases hacc : app.accepting_states with
      | nil => rw [hacc] at h; simp at h
      | cons e0 tl =>
        cases tl with
        | cons _ _ => rw [hacc] at h; simp at h
        | nil =>
          rw [hacc] at h
          dsimp only at h
          refine concat_go_bnd rest _ _ ?_ ?_ (fun r hr => hch r (List.mem_cons_of_mem _ hr)) a h
          · constructor
            · have := hb.hstart
              show acc.start_state < acc.states + app.states
              omega
            · intro tr htr
              simp only [transitions_clear_set, transitions_add_transition,
                transitions_merge, List.mem_append, List.mem_singleton] at htr
              rcases htr with (htr | htr) | htr
              · have := hb.htrans tr htr
                simp only [states_clear_set, states_add_transition, states_merge]
                omega
              · rcases List.mem_map.mp htr with ⟨tr0, htr0, rfl⟩
                have := happ.htrans tr0 htr0
                simp only [shiftT, states_clear_set, states_add_transition, states_merge]
                omega
              · subst htr
                have hs := happ.hstart
                refine ⟨?_, ?_⟩
                · show endS < acc.states + app.states
                  omega
                · show app.start_state + acc.states < acc.states + app.states
                  omega
            · intro x hx
              simp only [accepting_clear_set, List.mem_singleton] at hx
              subst hx
              have : e0 ∈ app.accepting_states := by rw [hacc]; exact List.mem_singleton.mpr rfl
              have := happ.hacc e0 this
              simp only [states_clear_set, states_add_transition, states_merge]
              omega
          · have : e0 ∈ app.accepting_states := by rw [hacc]; exact List.mem_singleton.mpr rfl
            have := happ.hacc e0 this
            simp only [states_clear_set, states_add_transition, states_merge]
            omega

/-- The concatenation fold either returns its accumulator unchanged or an
automaton with exactly one accepting state. -/
theorem concat_go_acc :
    ∀ (l : List TResult) (acc : Automaton) (endS : Nat) (a : Automaton),
      build_concat_go acc endS l = .ok a →
      a = acc ∨ a.accepting_states.length = 1
  | [], acc, endS, a, h => by
    simp only [build_concat_go] at h
    cases h
    exact .inl rfl
  | r :: rest, acc, endS, a, h => by
    simp only [build_concat_go] at h
    cases r with
    | error e => simp at h
    | panicked => simp at h
    | ok app =>
      dsimp only at h
      cases hacc : app.accepting_states with
      | nil => rw [hacc] at h; simp at h
      | cons e0 tl =>
        cases tl with
        | cons _ _ => rw [hacc] at h; simp at h
        | nil =>
          rw [hacc] at h
          dsimp only at h
          rcases concat_go_acc rest _ _ a h with heq | hlen
          · subst heq
            exact .inr (by simp)
          · exact .inr hlen

/-- Bounds are preserved by the alternation fold, and the state count only
grows. -/
theorem alt_go_bnd :
    ∀ (l : List TResult) (acc : Automaton) (s e : Nat),
      Bnd acc → s < acc.states → e < acc.states →
      (∀ r ∈ l, ∀ f, r = .ok f → Bnd f) →
      ∀ a, build_alt_go acc s e l = .ok a →
      Bnd a ∧ acc.states ≤ a.states ∧ a.start_state = acc.start_state
  | [], acc, s, e, hb, _, _, _, a, h => by
    simp only [build_alt_go] at h
    cases h
    exact ⟨hb, le_rfl, rfl⟩
  | r :: rest, acc, s, e, hb, hs, he, hch, a, h => by
    simp only [build_alt_go] at h
    cases r with
    | error err => simp at h
    | panicked => simp at h
    | ok alt =>
      dsimp only at h
      have halt : Bnd alt := hch (.ok alt) (List.mem_cons_self _ _) alt rfl
      cases hacc : alt.accepting_states with
      | nil => rw [hacc] at h; simp at h
      | cons e0 tl =>
        cases tl with
        | cons _ _ => rw [hacc] at h; simp at h
        | nil =>
          rw [hacc] at h
          dsimp only at h
          have he0 : e0 < alt.states := by
            refine halt.hacc e0 ?_
            rw [hacc]
            exact List.mem_singleton.mpr rfl
          have hstates : acc.states ≤ acc.states + alt.states := Nat.le_add_right _ _
          refine (alt_go_bnd rest _ s e ?_ ?_ ?_
            (fun r hr => hch r (List.mem_cons_of_mem _ hr)) a h).imp id
            (fun hrest => ⟨le_trans ?_ hrest.1, hrest.2⟩)
          · constructor
            · have := hb.hstart
              show acc.start_state < acc.states + alt.states
              omega
            · intro tr htr
              simp only [transitions_add_transition, transitions_merge, List.mem_append,
                List.mem_singleton, List.append_assoc, List.mem_cons, List.not_mem_nil,
                or_false] at htr
              rcases htr with htr | htr | htr | htr
              · have := hb.htrans tr htr
                show tr.1 < acc.states + alt.states ∧ tr.2.1 < acc.states + alt.states
                omega
              · rcases List.mem_map.mp htr with ⟨tr0, htr0, rfl⟩
                have := halt.htrans tr0 htr0
                refine ⟨?_, ?_⟩
                · show tr0.1 + acc.states < acc.states + alt.states
                  omega
                · show tr0.2.1 + acc.states < acc.states + alt.states
                  omega
              · subst htr
                have := halt.hstart
                refine ⟨?_, ?_⟩
                · show s < acc.states + alt.states
                  omega
                · show alt.start_state + acc.states < acc.states + alt.states
                  omega
              · subst htr
                refine ⟨?_, ?_⟩
                · show e0 + acc.states < acc.states + alt.states
                  omega
                · show e < acc.states + alt.states
                  omega
            · intro x hx
              simp only [accepting_add_transition, accepting_merge, List.mem_append] at hx
              rcases hx with hx | hx
              · have := hb.hacc x hx
                show x < acc.states + alt.states
                omega
              · rcases List.mem_map.mp hx with ⟨x0, hx0, rfl⟩
                have := halt.hacc x0 hx0
                show x0 + acc.states < acc.states + alt.states
                omega
          · show s < acc.states + alt.states
            omega
          · show e < acc.states + alt.states
            omega
          · exact hstates

/-- The literal builder always returns a bounded automaton. -/
theorem bnd_build_literal (atoms : List Char) (a : Automaton)
    (h : build_literal atoms = .ok a) : Bnd a := by
  rw [build_literal_eq] at h
  cases h
  constructor
  · exact Nat.zero_lt_two
  · intro tr htr
    rcases List.mem_map.mp htr with ⟨c, _, rfl⟩
    exact ⟨Nat.zero_lt_two, Nat.one_lt_two⟩
  · intro x hx
    rw [List.mem_singleton] at hx
    subst hx
    exact Nat.one_lt_two

/-- The class builder always returns a bounded automaton. -/
theorem bnd_build_class (class_ast : Class) (a : Automaton)
    (h : build_class class_ast = .ok a) : Bnd a := by
  cases class_ast with
  | OtherClass => simp [build_class] at h
  | Bracketed kind =>
    cases kind with
    | BinaryOp => simp [build_class] at h
    | Item item =>
      cases item with
      | OtherItem => simp [build_class] at h
      | Range s e =>
        simp only [build_class, build_class_set_range] at h
        exact bnd_build_literal _ a h

/-- The concatenation builder returns a bounded automaton whenever its
children do. -/
theorem bnd_build_concatenation (children : List TResult)
    (hch : ∀ r ∈ children, ∀ f, r = .ok f → Bnd f)
    (a : Automaton) (h : build_concatenation children = .ok a) : Bnd a := by
  simp only [build_concatenation, Automaton.new, Automaton.add_state,
    Automaton.set_start_state] at h
  refine concat_go_bnd children _ 0 ?_ ?_ hch a h
  · exact ⟨Nat.zero_lt_one, by intro tr htr; simp at htr, by intro x hx; simp at hx⟩
  · exact Nat.zero_lt_one

/-- The alternation builder returns a bounded automaton whenever its
children do. -/
theorem bnd_build_alternation (children : List TResult)
    (hch : ∀ r ∈ children, ∀ f, r = .ok f → Bnd f)
    (a : Automaton) (h : build_alternation children = .ok a) : Bnd a := by
  simp only [build_alternation, Automaton.new, Automaton.add_state] at h
  set acc0 : Automaton := ⟨2, [], 0, []⟩ with hacc0
  cases hgo : build_alt_go acc0 0 1 children with
  | error err => rw [hgo] at h; simp at h
  | panicked => rw [hgo] at h; simp at h
  | ok acc =>
    rw [hgo] at h
    dsimp only at h
    cases h
    have hb0 : Bnd acc0 := by
      exact ⟨Nat.zero_lt_two, by intro tr htr; simp [hacc0] at htr,
        by intro x hx; simp [hacc0] at hx⟩
    obtain ⟨hbacc, hle, _⟩ := alt_go_bnd children acc0 0 1 hb0 Nat.zero_lt_two
      Nat.one_lt_two hch acc hgo
    have h2 : 2 ≤ acc.states := by simpa [hacc0] using hle
    constructor
    · show (0 : Nat) < acc.states
      omega
    · intro tr htr
      simp only [transitions_clear_set, transitions_set_start] at htr
      have := hbacc.htrans tr htr
      show tr.1 < acc.states ∧ tr.2.1 < acc.states
      exact this
    · intro x hx
      simp only [accepting_clear_set, List.mem_singleton] at hx
      subst hx
      show (1 : Nat) < acc.states
      omega

/-- The repetition builder returns a bounded automaton whenever its inner
child does. -/
theorem bnd_build_repetition (op : RepetitionKind) (greedy : Bool) (r : TResult)
    (hch : ∀ f, r = .ok f → Bnd f)
    (a : Automaton) (h : build_repetition op greedy r = .ok a) : Bnd a := by
  simp only [build_repetition, Automaton.new, Automaton.add_state] at h
  cases r with
  | error err => simp at h
  | panicked => simp at h
  | ok inner =>
    dsimp only at h
    have hbi : Bnd inner := hch inner rfl
    cases hacc : inner.accepting_states with
    | nil => rw [hacc] at h; simp at h
    | cons e0 tl =>
      cases tl with
      | cons _ _ => rw [hacc] at h; simp at h
      | nil =>
        rw [hacc] at h
        dsimp only at h
        have he0 : e0 < inner.states := by
          refine hbi.hacc e0 ?_
          rw [hacc]
          exact List.mem_singleton.mpr rfl
        have hcore : ∀ (extra : List Transition),
            (∀ tr ∈ extra, tr.1 < 2 ∧ tr.2.1 < 2) →
            ∀ (m : Automaton),
            m.states = 2 + inner.states →
            m.start_state = 0 →
            m.accepting_states = [1] →
            m.transitions = inner.transitions.map (shiftT 2) ++
              (0, inner.start_state + 2, none) :: (e0 + 2, 1, none) :: extra →
            Bnd m := by
          intro extra hextra m hms hmst hmacc hmtr
          constructor
          · rw [hmst, hms]; omega
          · intro tr htr
            rw [hmtr] at htr
            rw [hms]
            simp only [List.mem_append, List.mem_cons] at htr
            rcases htr with htr | htr | htr | htr
            · rcases List.mem_map.mp htr with ⟨tr0, htr0, rfl⟩
              have := hbi.htrans tr0 htr0
              refine ⟨?_, ?_⟩
              · show tr0.1 + 2 < 2 + inner.states
                omega
              · show tr0.2.1 + 2 < 2 + inner.states
                omega
            · subst htr
              have := hbi.hstart
              refine ⟨?_, ?_⟩
              · show (0 : Nat) < 2 + inner.states
                omega
              · show inner.start_state + 2 < 2 + inner.states
                omega
            · subst htr
              refine ⟨?_, ?_⟩
              · show e0 + 2 < 2 + inner.states
                omega
              · show (1 : Nat) < 2 + inner.states
                omega
            · have := hextra tr htr
              omega
          · intro x hx
            rw [hmacc, List.mem_singleton] at hx
            subst hx
            rw [hms]
            omega
        cases op with
        | OneOrMore =>
          dsimp only at h
          cases h
          refine hcore [(1, 0, none)] ?_ _ rfl rfl (by simp) (by simp)
          intro tr htr
          rw [List.mem_singleton] at htr
          subst htr
          exact ⟨Nat.one_lt_two, Nat.zero_lt_two⟩
        | ZeroOrMore =>
          dsimp only at h
          cases h
          refine hcore [(0, 1, none), (1, 0, none)] ?_ _ rfl rfl (by simp) (by simp)
          intro tr htr
          simp only [List.mem_cons, List.not_mem_nil, or_false] at htr
          rcases htr with htr | htr
          · subst htr
            exact ⟨Nat.zero_lt_two, Nat.one_lt_two⟩
          · subst htr
            exact ⟨Nat.one_lt_two, Nat.zero_lt_two⟩
        | ZeroOrOne =>
          dsimp only at h
          cases h
          refine hcore [(0, 1, none)] ?_ _ rfl rfl (by simp) (by simp)
          intro tr htr
          rw [List.mem_singleton] at htr
          subst htr
          exact ⟨Nat.zero_lt_two, Nat.one_lt_two⟩
        | Range rng => simp at h

mutual

/-- Every automaton `build_tree` successfully returns is bounded: its start
state, all transition endpoints and all accepting markers are below its
state count. -/
theorem bt_bnd : (ast : Ast) → ∀ a, build_tree ast = .ok a → Bnd a
  | .Concat asts => fun a h => by
    simp only [build_tree] at h
    exact bnd_build_concatenation _ (btl_bnd asts) a h
  | .Repetition op greedy ast => fun a h => by
    simp only [build_tree] at h
    exact bnd_build_repetition op greedy _ (fun f hf => bt_bnd ast f hf) a h
  | .Literal c => fun a h => by
    simp only [build_tree] at h
    exact bnd_build_literal _ a h
  | .Alternation asts => fun a h => by
    simp only [build_tree] at h
    exact bnd_build_alternation _ (btl_bnd asts) a h
  | .Group ast => fun a h => by
    simp only [build_tree] at h
    exact bt_bnd ast a h
  | .Class class_ast => fun a h => by
    simp only [build_tree] at h
    exact bnd_build_class class_ast a h
  | .Empty => fun a h => by simp [build_tree] at h
  | .Flags => fun a h => by simp [build_tree] at h
  | .Dot => fun a h => by simp [build_tree] at h
  | .Assertion => fun a h => by simp [build_tree] at h

/-- List form of `bt_bnd`, over the translated children. -/
theorem btl_bnd : (asts : List Ast) → ∀ r ∈ build_tree_list asts, ∀ f, r = .ok f → Bnd f
  | [] => by
    intro r hr
    simp [build_tree_list] at hr
  | ast :: rest => by
    intro r hr f hf
    rw [build_tree_list] at hr
    rcases List.mem_cons.mp hr with hr | hr
    · subst hr
      exact bt_bnd ast f hf
    · exact btl_bnd rest r hr f hf

end

/-- The literal builder's sole accepting state is state 1. -/
theorem acc_build_literal (atoms : List Char) (a : Automaton)
    (h : build_literal atoms = .ok a) : a.accepting_states = [1] := by
  rw [build_literal_eq] at h
  cases h
  rfl

/-- The class builder's sole accepting state is state 1. -/
theorem acc_build_class (class_ast : Class) (a : Automaton)
    (h : build_class class_ast = .ok a) : a.accepting_states = [1] := by
  cases class_ast with
  | OtherClass => simp [build_class] at h
  | Bracketed kind =>
    cases kind with
    | BinaryOp => simp [build_class] at h
    | Item item =>
      cases item with
      | OtherItem => simp [build_class] at h
      | Range s e =>
        simp only [build_class, build_class_set_range] at h
        exact acc_build_literal _ a h

/-- The alternation builder's sole accepting state is state 1. -/
theorem acc_build_alternation (children : List TResult) (a : Automaton)
    (h : build_alternation children = .ok a) : a.accepting_states = [1] := by
  simp only [build_alternation, Automaton.new, Automaton.add_state] at h
  cases hgo : build_alt_go ⟨2, [], 0, []⟩ 0 1 children with
  | error err => rw [hgo] at h; simp at h
  | panicked => rw [hgo] at h; simp at h
  | ok acc =>
    rw [hgo] at h
    dsimp only at h
    cases h
    simp

/-- The repetition builder's sole accepting state is state 1. -/
theorem acc_build_repetition (op : RepetitionKind) (greedy : Bool) (r : TResult)
    (a : Automaton) (h : build_repetition op greedy r = .ok a) :
    a.accepting_states = [1] := by
  simp only [build_repetition, Automaton.new, Automaton.add_state] at h
  cases r with
  | error err => simp at h
  | panicked => simp at h
  | ok inner =>
    dsimp only at h
    cases hacc : inner.accepting_states with
    | nil => rw [hacc] at h; simp at h
    | cons e0 tl =>
      cases tl with
      | cons _ _ => rw [hacc] at h; simp at h
      | nil =>
        rw [hacc] at h
        dsimp only at h
        cases op with
        | OneOrMore => cases h; simp
        | ZeroOrMore => cases h; simp
        | ZeroOrOne => cases h; simp
        | Range rng => simp at h

/-- A nonempty concatenation fold ends with exactly one accepting state. -/
theorem concat_go_cons_acc (r : TResult) (rest : List TResult) (acc : Automaton)
    (endS : Nat) (a : Automaton)
    (h : build_concat_go acc endS (r :: rest) = .ok a) :
    a.accepting_states.length = 1 := by
  simp only [build_concat_go] at h
  cases r with
  | error e => simp at h
  | panicked => simp at h
  | ok app =>
    dsimp only at h
    cases hacc : app.accepting_states with
    | nil => rw [hacc] at h; simp at h
    | cons e0 tl =>
      cases tl with
      | cons _ _ => rw [hacc] at h; simp at h
      | nil =>
        rw [hacc] at h
        dsimp only at h
        rcases concat_go_acc rest _ _ a h with heq | hlen
        · subst heq
          simp
        · exact hlen

/-- Every automaton `build_tree` successfully returns has at most one
accepting state. -/
theorem bt_accLe : (ast : Ast) → ∀ a, build_tree ast = .ok a →
    a.accepting_states.length ≤ 1
  | .Concat asts => fun a h => by
    simp only [build_tree] at h
    simp only [build_concatenation, Automaton.new, Automaton.add_state,
      Automaton.set_start_state] at h
    rcases concat_go_acc _ _ _ a h with heq | hlen
    · subst heq
      simp
    · omega
  | .Repetition op greedy ast => fun a h => by
    simp only [build_tree] at h
    rw [acc_build_repetition op greedy _ a h]
    simp
  | .Literal c => fun a h => by
    simp only [build_tree] at h
    rw [acc_build_literal _ a h]
    simp
  | .Alternation asts => fun a h => by
    simp only [build_tree] at h
    rw [acc_build_alternation _ a h]
    simp
  | .Group ast => fun a h => by
    simp only [build_tree] at h
    exact bt_accLe ast a h
  | .Class class_ast => fun a h => by
    simp only [build_tree] at h
    rw [acc_build_class class_ast a h]
    simp
  | .Empty => fun a h => by simp [build_tree] at h
  | .Flags => fun a h => by simp [build_tree] at h
  | .Dot => fun a h => by simp [build_tree] at h
  | .Assertion => fun a h => by simp [build_tree] at h

/-- On a node without empty concatenations, a successful translation has
exactly one accepting state. -/
theorem bt_accOne : (ast : Ast) → noEmptyConcat ast = true → ∀ a, build_tree ast = .ok a →
    a.accepting_states.length = 1
  | .Concat asts => fun hne a h => by
    simp only [build_tree] at h
    simp only [build_concatenation, Automaton.new, Automaton.add_state,
      Automaton.set_start_state] at h
    cases asts with
    | nil => simp [noEmptyConcat] at hne
    | cons ast rest =>
      rw [build_tree_list] at h
      exact concat_go_cons_acc _ _ _ _ a h
  | .Repetition op greedy ast => fun hne a h => by
    simp only [build_tree] at h
    rw [acc_build_repetition op greedy _ a h]
    simp
  | .Literal c => fun hne a h => by
    simp only [build_tree] at h
    rw [acc_build_literal _ a h]
    simp
  | .Alternation asts => fun hne a h => by
    simp only [build_tree] at h
    rw [acc_build_alternation _ a h]
    simp
  | .Group ast => fun hne a h => by
    simp only [build_tree] at h
    exact bt_accOne ast (by simpa [noEmptyConcat] using hne) a h
  | .Class class_ast => fun hne a h => by
    simp only [build_tree] at h
    rw [acc_build_class class_ast a h]
    simp
  | .Empty => fun hne a h => by simp [build_tree] at h
  | .Flags => fun hne a h => by simp [build_tree] at h
  | .Dot => fun hne a h => by simp [build_tree] at h
  | .Assertion => fun hne a h => by simp [build_tree] at h

/-! ## Semantic helper lemmas -/

/-- A run can be extended by a trailing epsilon transition. -/
theorem steps_snoc_eps {b : Automaton} {s t u : Nat} {w : List Char}
    (hrun : Steps b s w t) (htr : ((t, u, (none : Option Char)) : Transition) ∈ b.transitions) :
    Steps b s w u := by
  induction hrun with
  | refl s => exact .eps htr (.refl u)
  | eps h _ ih => exact .eps h (ih htr)
  | symb h _ ih => exact .symb h (ih htr)

/-- A run in a fragment embeds, shifted, into any automaton containing all
the fragment's shifted transitions. -/
theorem steps_shift {f b : Automaton} {o p q : Nat} {w : List Char}
    (hsub : ∀ tr ∈ f.transitions, shiftT o tr ∈ b.transitions)
    (hrun : Steps f p w q) : Steps b (p + o) w (q + o) := by
  induction hrun with
  | refl s => exact .refl (s + o)
  | eps h _ ih => exact .eps (hsub _ h) ih
  | symb h _ ih => exact .symb (hsub _ h) ih

/-- An automaton with an empty accepting set accepts nothing. -/
theorem lang_empty_of_no_accepting (a : Automaton)
    (h : a.accepting_states = []) : Lang a = ∅ := by
  ext w
  simp only [Lang, Set.mem_setOf_eq, Set.mem_empty_iff_false, iff_false]
  rintro ⟨f, _, hf⟩
  rw [h] at hf
  exact List.not_mem_nil f hf

/-- In an automaton with no transitions, every run is trivial. -/
theorem steps_no_transitions {a : Automaton} (h : a.transitions = [])
    {s t : Nat} {w : List Char} (hrun : Steps a s w t) : w = [] ∧ t = s := by
  induction hrun with
  | refl s => exact ⟨rfl, rfl⟩
  | eps htr _ _ => rw [h] at htr; exact absurd htr (List.not_mem_nil _)
  | symb htr _ _ => rw [h] at htr; exact absurd htr (List.not_mem_nil _)

/-- An automaton with no transitions whose start state is not accepting
accepts nothing. -/
theorem lang_empty_of_no_transitions (a : Automaton) (h : a.transitions = [])
    (hst : a.start_state ∉ a.accepting_states) : Lang a = ∅ := by
  ext w
  simp only [Lang, Set.mem_setOf_eq, Set.mem_empty_iff_false, iff_false]
  rintro ⟨f, hrun, hf⟩
  obtain ⟨rfl, rfl⟩ := steps_no_transitions h hrun
  exact hst hf

/-- The language of a two-state literal automaton: exactly the
one-character words over its atom list. -/
theorem literal_accepts_iff (atoms : List Char) (w : List Char) :
    Accepts ⟨2, atoms.map (fun c => (0, 1, some c)), 0, [1]⟩ w ↔
      ∃ c ∈ atoms, w = [c] := by
  constructor
  · rintro ⟨f, hrun, hf⟩
    simp only [List.mem_singleton] at hf
    subst hf
    cases hrun with
    | eps htr hrest =>
      rcases List.mem_map.mp htr with ⟨c, _, hc⟩
      simp at hc
    | symb htr hrest =>
      rename_i t c w0
      rcases List.mem_map.mp htr with ⟨c0, hc0, hc⟩
      obtain ⟨_, ht, hcc⟩ : (0 : Nat) = 0 ∧ t = 1 ∧ some c = some c0 := by
        constructor
        · rfl
        · exact ⟨(Prod.ext_iff.mp (Prod.ext_iff.mp hc.symm).2).1,
            (Prod.ext_iff.mp (Prod.ext_iff.mp hc.symm).2).2⟩
      subst ht
      cases hcc
      cases hrest with
      | refl => exact ⟨c, hc0, rfl⟩
      | eps htr2 _ =>
        rcases List.mem_map.mp htr2 with ⟨c1, _, hc1⟩
        have : (1 : Nat) = 0 := (Prod.ext_iff.mp hc1.symm).1
        cases this
      | symb htr2 _ =>
        rcases List.mem_map.mp htr2 with ⟨c1, _, hc1⟩
        have : (1 : Nat) = 0 := (Prod.ext_iff.mp hc1.symm).1
        cases this
  · rintro ⟨c, hc, rfl⟩
    refine ⟨1, ?_, List.mem_singleton.mpr rfl⟩
    exact .symb (List.mem_map.mpr ⟨c, hc, rfl⟩) (.refl 1)

/-! ## The alternation automaton, in closed form -/

/-- Closed form of the alternation fold on all-`ok` children. -/
theorem alt_go_spec :
    ∀ (frags : List Automaton) (acc : Automaton) (s e : Nat),
      (∀ f ∈ frags, ∃ ef, f.accepting_states = [ef]) →
      build_alt_go acc s e (frags.map .ok) =
        .ok ⟨acc.states + sumStates frags,
             acc.transitions ++ altTransG s e frags acc.states,
             acc.start_state,
             acc.accepting_states ++ altAccG frags acc.states⟩
  | [], acc, s, e, _ => by
    cases acc
    simp [build_alt_go, sumStates, altTransG, altAccG]
  | f :: rest, acc, s, e, hsing => by
    obtain ⟨ef, hef⟩ := hsing f (List.mem_cons_self _ _)
    have hfe : fragEnd f = ef := by rw [fragEnd, hef]; rfl
    simp only [List.map_cons, build_alt_go]
    rw [hef]
    dsimp only
    rw [alt_go_spec rest _ s e (fun g hg => hsing g (List.mem_cons_of_mem _ hg))]
    simp only [TResult.ok.injEq, Automaton.mk.injEq, states_add_transition, states_merge,
      transitions_add_transition, transitions_merge, start_add_transition, start_merge,
      accepting_add_transition, accepting_merge, altTransG, altAccG, sumStates, hfe]
    refine ⟨by omega, by simp [List.append_assoc], trivial, by simp [List.append_assoc]⟩

/-- Closed form of the alternation builder on all-`ok` children. -/
theorem build_alternation_spec (frags : List Automaton)
    (hsing : ∀ f ∈ frags, ∃ ef, f.accepting_states = [ef]) :
    build_alternation (frags.map .ok) =
      .ok ⟨2 + sumStates frags, altTransG 0 1 frags 2, 0, [1]⟩ := by
  simp only [build_alternation, Automaton.new, Automaton.add_state]
  rw [alt_go_spec frags ⟨2, [], 0, []⟩ 0 1 hsing]
  simp [Automaton.set_start_state, Automaton.clear_accepting, Automaton.set_accepting]

/-- A successful alternation fold forces every child to be `ok` with a
singleton accepting set. -/
theorem alt_go_ok_children :
    ∀ (l : List TResult) (acc : Automaton) (s e : Nat) (a : Automaton),
      build_alt_go acc s e l = .ok a →
      ∀ r ∈ l, ∃ f, r = .ok f ∧ ∃ ef, f.accepting_states = [ef]
  | [], acc, s, e, a, _ => by
    intro r hr
    exact absurd hr (List.not_mem_nil r)
  | r0 :: rest, acc, s, e, a, h => by
    intro r hr
    simp only [build_alt_go] at h
    cases r0 with
    | error err => simp at h
    | panicked => simp at h
    | ok alt =>
      dsimp only at h
      cases hacc : alt.accepting_states with
      | nil => rw [hacc] at h; simp at h
      | cons e0 tl =>
        cases tl with
        | cons _ _ => rw [hacc] at h; simp at h
        | nil =>
          rw [hacc] at h
          dsimp only at h
          rcases List.mem_cons.mp hr with hr | hr
          · subst hr
            exact ⟨alt, rfl, e0, hacc⟩
          · exact alt_go_ok_children rest _ s e a h r hr

/-- A successful alternation forces every child to be `ok` with a singleton
accepting set. -/
theorem build_alternation_children (l : List TResult) (A : Automaton)
    (h : build_alternation l = .ok A) :
    ∀ r ∈ l, ∃ f, r = .ok f ∧ ∃ ef, f.accepting_states = [ef] := by
  simp only [build_alternation, Automaton.new, Automaton.add_state] at h
  cases hgo : build_alt_go ⟨2, [], 0, []⟩ 0 1 l with
  | error err => rw [hgo] at h; simp at h
  | panicked => rw [hgo] at h; simp at h
  | ok acc => exact alt_go_ok_children l _ 0 1 acc hgo

/-- A list of results that are all `ok` is the image of a fragment list. -/
theorem list_ok_decompose (P : Automaton → Prop) :
    ∀ (l : List TResult), (∀ r ∈ l, ∃ f, r = .ok f ∧ P f) →
      ∃ frags : List Automaton, l = frags.map .ok ∧ ∀ f ∈ frags, P f
  | [], _ => ⟨[], rfl, by intro f hf; exact absurd hf (List.not_mem_nil f)⟩
  | r :: rest, hl => by
    obtain ⟨f0, hr0, hp0⟩ := hl r (List.mem_cons_self _ _)
    obtain ⟨frags, hfr, hpr⟩ :=
      list_ok_decompose P rest (fun r hr => hl r (List.mem_cons_of_mem _ hr))
    refine ⟨f0 :: frags, ?_, ?_⟩
    · rw [List.map_cons, ← hfr, hr0]
    · intro f hf
      rcases List.mem_cons.mp hf with hf | hf
      · subst hf; exact hp0
      · exact hpr f hf

/-! ## Language of the alternation automaton -/

/-- A block position is at least the base offset. -/
theorem IB_lb : ∀ (frags : List Automaton) (o s : Nat) (w : List Char),
    InBlockAcc frags o s w → o ≤ s
  | [], _, _, _, h => h.elim
  | f :: rest, o, s, w, h => by
    rcases h with ⟨h1, _, _⟩ | h
    · exact h1
    · have := IB_lb rest (o + f.states) s w h
      omega

/-- Every edge of the alternation transition list (with boundary states
`0`/`1`) targets either state 1 or a state at or above the base offset. -/
theorem alt_target : ∀ (frags : List Automaton) (o : Nat) (tr : Transition),
    tr ∈ altTransG 0 1 frags o → tr.2.1 = 1 ∨ o ≤ tr.2.1
  | [], _, tr, h => absurd h (List.not_mem_nil tr)
  | f :: rest, o, tr, h => by
    simp only [altTransG, List.mem_append, List.mem_cons] at h
    rcases h with h | h | h | h
    · rcases List.mem_map.mp h with ⟨tr0, _, rfl⟩
      right
      show o ≤ tr0.2.1 + o
      omega
    · subst h
      right
      show o ≤ f.start_state + o
      omega
    · subst h
      left
      rfl
    · rcases alt_target rest (o + f.states) tr h with h | h
      · exact .inl h
      · right
        omega

/-- Following an epsilon edge of the alternation automaton backwards
through the run analysis. -/
theorem alt_step_none :
    ∀ (frags : List Automaton) (o : Nat), 2 ≤ o →
      (∀ f ∈ frags, Bnd f ∧ ∃ ef, f.accepting_states = [ef]) →
      ∀ (s t : Nat) (w : List Char),
      (((s, t, none) : Transition) ∈ altTransG 0 1 frags o) →
      ((t = 1 ∧ w = []) ∨ InBlockAcc frags o t w ∨ (t = 0 ∧ AltAcc frags w)) →
      InBlockAcc frags o s w ∨ (s = 0 ∧ AltAcc frags w)
  | [], _, _, _, _, _, _, htr, _ => absurd htr (List.not_mem_nil _)
  | f :: rest, o, ho, hwf, s, t, w, htr, iht => by
    obtain ⟨hbf, ef, hef⟩ := hwf f (List.mem_cons_self _ _)
    have hfe : fragEnd f = ef := by rw [fragEnd, hef]; rfl
    have hefs : ef < f.states :=
      hbf.hacc ef (by rw [hef]; exact List.mem_singleton.mpr rfl)
    simp only [altTransG, List.mem_append, List.mem_cons] at htr
    rcases htr with htr | htr | htr | htr
    · rcases List.mem_map.mp htr with ⟨⟨p, q, sym⟩, htr0, heq⟩
      obtain ⟨hps, hqt, hsym⟩ : p + o = s ∧ q + o = t ∧ sym = none := by
        simpa [shiftT, Prod.ext_iff] using heq
      subst hsym
      obtain ⟨hp1, hq1⟩ := hbf.htrans (p, q, none) htr0
      have hp1g : p < f.states := hp1
      have hq1g : q < f.states := hq1
      rcases iht with ⟨h1, _⟩ | hib | ⟨h0, _⟩
      · omega
      · rcases hib with ⟨hb1, hb2, hsteps⟩ | hib
        · left
          left
          refine ⟨by omega, by omega, ?_⟩
          rw [show t - o = q by omega] at hsteps
          rw [show s - o = p by omega]
          exact .eps htr0 hsteps
        · have := IB_lb rest (o + f.states) t w hib
          omega
      · omega
    · obtain ⟨hs0, hts⟩ : s = 0 ∧ t = f.start_state + o := by
        simpa [Prod.ext_iff] using htr
      have hst := hbf.hstart
      rcases iht with ⟨h1, _⟩ | hib | ⟨h0, _⟩
      · omega
      · rcases hib with ⟨hb1, hb2, hsteps⟩ | hib
        · right
          refine ⟨hs0, f, List.mem_cons_self _ _, ef, ?_, by rw [hef]; exact List.mem_singleton.mpr rfl⟩
          rw [show t - o = f.start_state by omega, hfe] at hsteps
          exact hsteps
        · have := IB_lb rest (o + f.states) t w hib
          omega
      · omega
    · obtain ⟨hse, ht1⟩ : s = fragEnd f + o ∧ t = 1 := by
        simpa [Prod.ext_iff] using htr
      rcases iht with ⟨h1, hw⟩ | hib | ⟨h0, _⟩
      · subst hw
        left
        left
        refine ⟨by omega, by rw [hfe] at hse; omega, ?_⟩
        rw [show s - o = fragEnd f by omega]
        exact .refl _
      · have := IB_lb (f :: rest) o t w hib
        omega
      · omega
    · have htgt : t = 1 ∨ o + f.states ≤ t :=
        alt_target rest (o + f.states) (s, t, none) htr
      have hwfr : ∀ g ∈ rest, Bnd g ∧ ∃ eg, g.accepting_states = [eg] :=
        fun g hg => hwf g (List.mem_cons_of_mem _ hg)
      have iht_rest : (t = 1 ∧ w = []) ∨ InBlockAcc rest (o + f.states) t w ∨
          (t = 0 ∧ AltAcc rest w) := by
        rcases htgt with h1 | hge
        · subst h1
          rcases iht with ⟨_, hw⟩ | hib | ⟨h0, _⟩
          · exact .inl ⟨rfl, hw⟩
          · have := IB_lb (f :: rest) o 1 w hib
            omega
          · omega
        · rcases iht with ⟨h1, _⟩ | hib | ⟨h0, _⟩
          · omega
          · rcases hib with ⟨_, hlt, _⟩ | hib
            · omega
            · exact .inr (.inl hib)
          · omega
      rcases alt_step_none rest (o + f.states) (by omega) hwfr s t w htr iht_rest with
        hib | ⟨h0, g, hg, hacc⟩
      · exact .inl (.inr hib)
      · exact .inr ⟨h0, g, List.mem_cons_of_mem _ hg, hacc⟩

/-- Following a symbol edge of the alternation automaton backwards through
the run analysis. -/
theorem alt_step_some :
    ∀ (frags : List Automaton) (o : Nat), 2 ≤ o →
      (∀ f ∈ frags, Bnd f ∧ ∃ ef, f.accepting_states = [ef]) →
      ∀ (s t : Nat) (c : Char) (w : List Char),
      (((s, t, some c) : Transition) ∈ altTransG 0 1 frags o) →
      ((t = 1 ∧ w = []) ∨ InBlockAcc frags o t w ∨ (t = 0 ∧ AltAcc frags w)) →
      InBlockAcc frags o s (c :: w) ∨ (s = 0 ∧ AltAcc frags (c :: w))
  | [], _, _, _, _, _, _, _, htr, _ => absurd htr (List.not_mem_nil _)
  | f :: rest, o, ho, hwf, s, t, c, w, htr, iht => by
    obtain ⟨hbf, ef, hef⟩ := hwf f (List.mem_cons_self _ _)
    have hfe : fragEnd f = ef := by rw [fragEnd, hef]; rfl
    simp only [altTransG, List.mem_append, List.mem_cons] at htr
    rcases htr with htr | htr | htr | htr
    · rcases List.mem_map.mp htr with ⟨⟨p, q, sym⟩, htr0, heq⟩
      obtain ⟨hps, hqt, hsym⟩ : p + o = s ∧ q + o = t ∧ sym = some c := by
        simpa [shiftT, Prod.ext_iff] using heq
      subst hsym
      obtain ⟨hp1, hq1⟩ := hbf.htrans (p, q, some c) htr0
      have hp1g : p < f.states := hp1
      have hq1g : q < f.states := hq1
      rcases iht with ⟨h1, _⟩ | hib | ⟨h0, _⟩
      · omega
      · rcases hib with ⟨hb1, hb2, hsteps⟩ | hib
        · left
          left
          refine ⟨by omega, by omega, ?_⟩
          rw [show t - o = q by omega] at hsteps
          rw [show s - o = p by omega]
          exact .symb htr0 hsteps
        · have := IB_lb rest (o + f.states) t w hib
          omega
      · omega
    · simp [Prod.ext_iff] at htr
    · simp [Prod.ext_iff] at htr
    · have htgt : t = 1 ∨ o + f.states ≤ t :=
        alt_target rest (o + f.states) (s, t, some c) htr
      have hwfr : ∀ g ∈ rest, Bnd g ∧ ∃ eg, g.accepting_states = [eg] :=
        fun g hg => hwf g (List.mem_cons_of_mem _ hg)
      have iht_rest : (t = 1 ∧ w = []) ∨ InBlockAcc rest (o + f.states) t w ∨
          (t = 0 ∧ AltAcc rest w) := by
        rcases htgt with h1 | hge
        · subst h1
          rcases iht with ⟨_, hw⟩ | hib | ⟨h0, _⟩
          · exact .inl ⟨rfl, hw⟩
          · have := IB_lb (f :: rest) o 1 w hib
            omega
          · omega
        · rcases iht with ⟨h1, _⟩ | hib | ⟨h0, _⟩
          · omega
          · rcases hib with ⟨_, hlt, _⟩ | hib
            · omega
            · exact .inr (.inl hib)
          · omega
      rcases alt_step_some rest (o + f.states) (by omega) hwfr s t c w htr iht_rest with
        hib | ⟨h0, g, hg, hacc⟩
      · exact .inl (.inr hib)
      · exact .inr ⟨h0, g, List.mem_cons_of_mem _ hg, hacc⟩

/-- Run extraction: any run of the alternation automaton ending in the
accepting boundary state starts at it trivially, inside a block, or at the
start boundary state with some alternative accepting the word. -/
theorem alt_run (frags : List Automaton)
    (hwf : ∀ f ∈ frags, Bnd f ∧ ∃ ef, f.accepting_states = [ef])
    {A : Automaton} (hA : A.transitions = altTransG 0 1 frags 2)
    {s fin : Nat} {w : List Char} (hrun : Steps A s w fin) (hfin : fin = 1) :
    (s = 1 ∧ w = []) ∨ InBlockAcc frags 2 s w ∨ (s = 0 ∧ AltAcc frags w) := by
  induction hrun with
  | refl s0 => subst hfin; exact .inl ⟨rfl, rfl⟩
  | eps htr _ ih =>
    rw [hA] at htr
    rcases alt_step_none frags 2 le_rfl hwf _ _ _ htr (ih hfin) with h | h
    · exact .inr (.inl h)
    · exact .inr (.inr h)
  | symb htr _ ih =>
    rw [hA] at htr
    rcases alt_step_some frags 2 le_rfl hwf _ _ _ _ htr (ih hfin) with h | h
    · exact .inr (.inl h)
    · exact .inr (.inr h)

/-- Every fragment of the list sits at some offset: its shifted transitions
and its entry and exit glue edges are all in the alternation transition
list. -/
theorem alt_embed :
    ∀ (frags : List Automaton) (o : Nat) (f : Automaton), f ∈ frags →
      ∃ o', o ≤ o' ∧
        (∀ tr ∈ f.transitions, shiftT o' tr ∈ altTransG 0 1 frags o) ∧
        (((0, f.start_state + o', none) : Transition) ∈ altTransG 0 1 frags o) ∧
        (((fragEnd f + o', 1, none) : Transition) ∈ altTransG 0 1 frags o)
  | [], _, f, hf => absurd hf (List.not_mem_nil f)
  | g :: rest, o, f, hf => by
    rcases List.mem_cons.mp hf with hf | hf
    · subst hf
      refine ⟨o, le_rfl, ?_, ?_, ?_⟩
      · intro tr htr
        simp only [altTransG, List.mem_append]
        exact .inl (List.mem_map.mpr ⟨tr, htr, rfl⟩)
      · simp [altTransG]
      · simp [altTransG]
    · obtain ⟨o', ho', hsub, hentry, hexit⟩ := alt_embed rest (o + g.states) f hf
      refine ⟨o', by omega, ?_, ?_, ?_⟩
      · intro tr htr
        simp only [altTransG, List.mem_append, List.mem_cons]
        exact .inr (.inr (.inr (hsub tr htr)))
      · simp only [altTransG, List.mem_append, List.mem_cons]
        exact .inr (.inr (.inr hentry))
      · simp only [altTransG, List.mem_append, List.mem_cons]
        exact .inr (.inr (.inr hexit))

/-- The language of the alternation automaton is the union of its
fragments' languages. -/
theorem alt_accepts_iff (frags : List Automaton)
    (hwf : ∀ f ∈ frags, Bnd f ∧ ∃ ef, f.accepting_states = [ef]) (w : List Char) :
    Accepts ⟨2 + sumStates frags, altTransG 0 1 frags 2, 0, [1]⟩ w ↔ AltAcc frags w := by
  constructor
  · rintro ⟨fin, hrun, hfin⟩
    simp only [List.mem_singleton] at hfin
    rcases alt_run frags hwf rfl hrun hfin with ⟨h1, _⟩ | hib | ⟨_, hacc⟩
    · exact absurd h1 (by simp)
    · have h20 : (2 : Nat) ≤ 0 := IB_lb frags 2 0 w hib
      omega
    · exact hacc
  · rintro ⟨f, hf, fin, hrun, hfinmem⟩
    obtain ⟨hbf, ef, hef⟩ := hwf f hf
    have hfe : fragEnd f = ef := by rw [fragEnd, hef]; rfl
    rw [hef, List.mem_singleton] at hfinmem
    subst hfinmem
    obtain ⟨o', _, hsub, hentry, hexit⟩ := alt_embed frags 2 f hf
    have hshift : Steps ⟨2 + sumStates frags, altTransG 0 1 frags 2, 0, [1]⟩
        (f.start_state + o') w (fin + o') := steps_shift hsub hrun
    have hwithentry : Steps ⟨2 + sumStates frags, altTransG 0 1 frags 2, 0, [1]⟩
        0 w (fin + o') := .eps hentry hshift
    refine ⟨1, ?_, List.mem_singleton.mpr rfl⟩
    rw [hfe] at hexit
    exact steps_snoc_eps hwithentry hexit

/-- The language of a translated alternation node is the union of its
alternatives' languages. -/
theorem build_tree_alternation_lang (asts : List Ast) (A : Automaton)
    (h : build_tree (.Alternation asts) = .ok A) (w : List Char) :
    Accepts A w ↔ ∃ ast ∈ asts, ∃ f, build_tree ast = .ok f ∧ Accepts f w := by
  have hb : build_alternation (asts.map build_tree) = .ok A := by
    simpa only [build_tree, build_tree_list_eq_map] using h
  have hch := build_alternation_children _ A hb
  obtain ⟨frags, hmap, hsing⟩ :=
    list_ok_decompose (fun f => ∃ ef, f.accepting_states = [ef]) _ hch
  have hmem : ∀ f, f ∈ frags ↔ ∃ ast ∈ asts, build_tree ast = .ok f := by
    intro f
    constructor
    · intro hf
      have : (.ok f : TResult) ∈ asts.map build_tree := by
        rw [hmap]
        exact List.mem_map.mpr ⟨f, hf, rfl⟩
      rcases List.mem_map.mp this with ⟨ast, hast, heq⟩
      exact ⟨ast, hast, heq⟩
    · rintro ⟨ast, hast, heq⟩
      have : (.ok f : TResult) ∈ frags.map TResult.ok := by
        rw [← hmap]
        rw [← heq]
        exact List.mem_map.mpr ⟨ast, hast, rfl⟩
      rcases List.mem_map.mp this with ⟨f0, hf0, heq0⟩
      cases heq0
      exact hf0
  have hwf : ∀ f ∈ frags, Bnd f ∧ ∃ ef, f.accepting_states = [ef] := by
    intro f hf
    rcases (hmem f).mp hf with ⟨ast, _, heq⟩
    exact ⟨bt_bnd ast f heq, hsing f hf⟩
  rw [hmap, build_alternation_spec frags hsing] at hb
  cases hb
  rw [alt_accepts_iff frags hwf w]
  constructor
  · rintro ⟨f, hf, hacc⟩
    rcases (hmem f).mp hf with ⟨ast, hast, heq⟩
    exact ⟨ast, hast, f, heq, hacc⟩
  · rintro ⟨ast, hast, f, heq, hacc⟩
    exact ⟨f, (hmem f).mpr ⟨ast, hast, heq⟩, hacc⟩

/-! ## The claims -/

/-- C1, counterexample: translating the bounded repetition `a{2,4}` does
not return an `Unsupported*` error value — it hits the Rust `panic!`
(translator.rs:174), an uncontrolled abort. -/
theorem C1_counterexample :
    build_tree (.Repetition (.Range (.Bounded 2 4)) true (.Literal 'a')) = .panicked := rfl

/-- C1 (amended): when translation reaches a repetition node whose operator
is any shape other than zero-or-more, one-or-more or zero-or-one (i.e. a
bounded-count `Range` kind), it never returns an automaton: it propagates
the inner sub-expression's translation error if there is one, and
otherwise aborts with an uncontrolled panic — not an `Unsupported*` error
value. -/
theorem C1_unsupported_repetition_never_ok (rng : RepetitionRange) (greedy : Bool) (ast : Ast) :
    build_tree (.Repetition (.Range rng) greedy ast) =
      (match build_tree ast with
       | .error e => .error e
       | _ => .panicked) := by
  simp only [build_tree]
  cases hr : build_tree ast with
  | error e => simp [build_repetition, Automaton.new, Automaton.add_state]
  | panicked => simp [build_repetition, Automaton.new, Automaton.add_state]
  | ok inner =>
    simp only [build_repetition, Automaton.new, Automaton.add_state]
    cases hacc : inner.accepting_states with
    | nil => rfl
    | cons e0 tl =>
      cases tl with
      | nil => rfl
      | cons _ _ => rfl

/-- C2, counterexample: for the class range `a`–`Ĳ` (codes 97 and 306,
so `code(s) ≤ code(e)`) the `as u8` truncation makes the expanded range
empty: the fragment has no transitions at all and accepts nothing, while
the claim requires one transition per character code in `[97, 306]`. -/
theorem C2_counterexample :
    'a'.toNat ≤ (Char.ofNat 306).toNat ∧
    build_class_set_range 'a' (Char.ofNat 306) = .ok ⟨2, [], 0, [1]⟩ ∧
    Lang ⟨2, [], 0, [1]⟩ = ∅ :=
  ⟨by decide, rfl, lang_empty_of_no_transitions _ rfl (by decide)⟩

/-- C2 (amended): for a bracketed single-range class with
`code(s) ≤ code(e) < 256`, the fragment has exactly one transition from
its start state 0 to its sole accepting state 1 per character code in
`[code(s), code(e)]`, and accepts exactly the corresponding one-character
words; in particular `[a-c]` accepts exactly {"a","b","c"}. -/
theorem C2_class_range (s e : Char) (h1 : s.toNat ≤ e.toNat) (h2 : e.toNat < 256) :
    (build_class_set_range s e =
      .ok ⟨2, (List.range' s.toNat (e.toNat + 1 - s.toNat)).map
        (fun n => (0, 1, some (Char.ofNat n))), 0, [1]⟩) ∧
    (∀ w, Accepts ⟨2, (List.range' s.toNat (e.toNat + 1 - s.toNat)).map
        (fun n => (0, 1, some (Char.ofNat n))), 0, [1]⟩ w ↔
      ∃ n, s.toNat ≤ n ∧ n ≤ e.toNat ∧ w = [Char.ofNat n]) ∧
    (build_class (.Bracketed (.Item (.Range 'a' 'c'))) =
      .ok ⟨2, [(0, 1, some 'a'), (0, 1, some 'b'), (0, 1, some 'c')], 0, [1]⟩) ∧
    (∀ w, Accepts ⟨2, [(0, 1, some 'a'), (0, 1, some 'b'), (0, 1, some 'c')], 0, [1]⟩ w ↔
      (w = ['a'] ∨ w = ['b'] ∨ w = ['c'])) := by
  have hmm : (List.range' s.toNat (e.toNat + 1 - s.toNat)).map
      (fun n => ((0, 1, some (Char.ofNat n)) : Transition)) =
      ((List.range' s.toNat (e.toNat + 1 - s.toNat)).map Char.ofNat).map
        (fun c => (0, 1, some c)) := by
    rw [List.map_map]
    rfl
  refine ⟨?_, ?_, rfl, ?_⟩
  · show build_literal ((List.range' (s.toNat % 256) (e.toNat % 256 + 1 - s.toNat % 256)).map
      Char.ofNat) = _
    rw [Nat.mod_eq_of_lt (lt_of_le_of_lt h1 h2), Nat.mod_eq_of_lt h2, build_literal_eq, hmm]
  · intro w
    rw [hmm]
    rw [literal_accepts_iff]
    constructor
    · rintro ⟨c, hc, rfl⟩
      rcases List.mem_map.mp hc with ⟨n, hn, rfl⟩
      rw [List.mem_range'_1] at hn
      exact ⟨n, hn.1, by omega, rfl⟩
    · rintro ⟨n, hn1, hn2, rfl⟩
      refine ⟨Char.ofNat n, List.mem_map.mpr ⟨n, ?_, rfl⟩, rfl⟩
      rw [List.mem_range'_1]
      omega
  · intro w
    rw [show (⟨2, [(0, 1, some 'a'), (0, 1, some 'b'), (0, 1, some 'c')], 0, [1]⟩ : Automaton) =
      ⟨2, (['a', 'b', 'c'].map fun c => (0, 1, some c)), 0, [1]⟩ from rfl]
    rw [literal_accepts_iff]
    constructor
    · rintro ⟨c, hc, rfl⟩
      rcases List.mem_cons.mp hc with h | hc
      · exact .inl (by rw [h])
      rcases List.mem_cons.mp hc with h | hc
      · exact .inr (.inl (by rw [h]))
      rcases List.mem_cons.mp hc with h | hc
      · exact .inr (.inr (by rw [h]))
      · exact absurd hc (List.not_mem_nil c)
    · rintro (rfl | rfl | rfl)
      · exact ⟨'a', by simp, rfl⟩
      · exact ⟨'b', by simp, rfl⟩
      · exact ⟨'c', by simp, rfl⟩

/-- C2, witness: the general part of the amended claim instantiated at the
range `a`–`c`. -/
theorem C2_witness :
    build_class_set_range 'a' 'c' =
      .ok ⟨2, (List.range' 97 3).map (fun n => (0, 1, some (Char.ofNat n))), 0, [1]⟩ :=
  (C2_class_range 'a' 'c' (by decide) (by decide)).1

/-- C3, counterexample: the empty concatenation node is supported (it is a
`Concat`), translates successfully, and its result has zero accepting
states, not exactly one. -/
theorem C3_counterexample :
    build_tree (.Concat []) = .ok ⟨1, [], 0, []⟩ ∧
    (⟨1, [], 0, []⟩ : Automaton).accepting_states.length ≠ 1 :=
  ⟨rfl, by decide⟩

/-- C3 (amended): every automaton a supported node successfully translates
to references only state ids strictly below its state count (start state,
both endpoints of every transition, every accepting marker) and has at
most one accepting state; it has exactly one accepting state whenever no
concatenation node of the tree has an empty child sequence (the empty
concatenation, and it alone, yields an automaton with an empty accepting
set). -/
theorem C3_fragment_invariant (ast : Ast) (a : Automaton) (h : build_tree ast = .ok a) :
    (a.start_state < a.states ∧
     (∀ tr ∈ a.transitions, tr.1 < a.states ∧ tr.2.1 < a.states) ∧
     (∀ x ∈ a.accepting_states, x < a.states) ∧
     a.accepting_states.length ≤ 1) ∧
    (noEmptyConcat ast = true → a.accepting_states.length = 1) := by
  obtain ⟨h1, h2, h3⟩ := bt_bnd ast a h
  exact ⟨⟨h1, h2, h3, bt_accLe ast a h⟩, fun hne => bt_accOne ast hne a h⟩

/-- C3, witness: the invariant instantiated at the literal `a`. -/
theorem C3_witness : litA.accepting_states.length = 1 :=
  (C3_fragment_invariant (.Literal 'a') litA rfl).2 rfl

/-- C4, counterexample: the empty concatenation's fragment accepts
nothing — in particular it does not accept the empty string, contrary to
the claim. -/
theorem C4_counterexample :
    build_tree (.Concat []) = .ok ⟨1, [], 0, []⟩ ∧
    Lang ⟨1, [], 0, []⟩ = ∅ ∧
    ([] : List Char) ∉ Lang ⟨1, [], 0, []⟩ :=
  ⟨rfl, lang_empty_of_no_accepting _ rfl, by
    rw [lang_empty_of_no_accepting _ rfl]
    exact Set.not_mem_empty _⟩

/-- C4 (amended): a concatenation node with an empty child sequence
translates to a single-state fragment with no transitions and an empty
accepting set, whose language is empty: every string, including the empty
string, is rejected. -/
theorem C4_empty_concatenation :
    build_tree (.Concat []) = .ok ⟨1, [], 0, []⟩ ∧
    (⟨1, [], 0, []⟩ : Automaton).states = 1 ∧
    (⟨1, [], 0, []⟩ : Automaton).accepting_states = [] ∧
    Lang ⟨1, [], 0, []⟩ = ∅ :=
  ⟨rfl, rfl, rfl, lang_empty_of_no_accepting _ rfl⟩

/-- C5, counterexample: for `a+` the repeat edge the code adds is
`E → S` = `(1, 0, ε)`, not the claimed `innerEnd → S` = `(3, 0, ε)`: the
produced transition list does not contain `(3, 0, ε)`. -/
theorem C5_counterexample :
    build_tree (.Repetition .OneOrMore true (.Literal 'a')) =
      .ok ⟨4, [(2, 3, some 'a'), (0, 2, none), (3, 1, none), (1, 0, none)], 0, [1]⟩ ∧
    ((3, 0, (none : Option Char)) : Transition) ∉
      ([(2, 3, some 'a'), (0, 2, none), (3, 1, none), (1, 0, none)] : List Transition) :=
  ⟨rfl, by decide⟩

/-- C5 (amended): for a one-or-more repetition wrapping a merged inner
fragment with start `innerStart` and accepting state `innerEnd`, the built
fragment adds the two fresh boundary states `S = 0` and `E = 1` and
exactly the epsilon edges `S → innerStart + 2`, `innerEnd + 2 → E` and
`E → S` (the repeat edge runs from the boundary accepting state `E` back
to `S`, not from `innerEnd`; there is no skip edge), with `S` the fragment
start and `E` the sole accepting state. -/
theorem C5_one_or_more (greedy : Bool) (inner : Automaton) (ie : Nat)
    (hacc : inner.accepting_states = [ie]) :
    build_repetition .OneOrMore greedy (.ok inner) =
      .ok ⟨2 + inner.states,
           inner.transitions.map (shiftT 2) ++
             [(0, inner.start_state + 2, none), (ie + 2, 1, none), (1, 0, none)],
           0, [1]⟩ := by
  simp only [build_repetition, Automaton.new, Automaton.add_state]
  rw [hacc]
  dsimp only
  simp [Automaton.set_start_state, Automaton.clear_accepting, Automaton.set_accepting,
    Automaton.add_transition, Automaton.add_states_and_transitions]

/-- C5, witness: the amended shape instantiated at the literal fragment
for `a`. -/
theorem C5_witness :
    build_repetition .OneOrMore true (.ok litA) =
      .ok ⟨4, [(2, 3, some 'a'), (0, 2, none), (3, 1, none), (1, 0, none)], 0, [1]⟩ :=
  C5_one_or_more true litA 1 rfl

/-- C6: merging automaton B into automaton A yields A's state count plus
B's; every transition of B reappears with both endpoints shifted by
exactly A's pre-merge state count, every accepting marker of B reappears
shifted the same way, and A's transitions, start state and accepting
markers are unchanged. -/
theorem C6_merge (A B : Automaton) :
    (A.add_states_and_transitions B).states = A.states + B.states ∧
    (∀ tr ∈ B.transitions,
      ((tr.1 + A.states, tr.2.1 + A.states, tr.2.2) : Transition) ∈
        (A.add_states_and_transitions B).transitions) ∧
    (∀ x ∈ B.accepting_states,
      x + A.states ∈ (A.add_states_and_transitions B).accepting_states) ∧
    (∀ tr ∈ A.transitions, tr ∈ (A.add_states_and_transitions B).transitions) ∧
    (A.add_states_and_transitions B).start_state = A.start_state ∧
    (∀ x ∈ A.accepting_states, x ∈ (A.add_states_and_transitions B).accepting_states) ∧
    (A.add_states_and_transitions B).transitions =
      A.transitions ++ B.transitions.map (shiftT A.states) := by
  refine ⟨rfl, ?_, ?_, ?_, rfl, ?_, rfl⟩
  · intro tr htr
    simp only [transitions_merge, List.mem_append]
    exact .inr (List.mem_map.mpr ⟨tr, htr, rfl⟩)
  · intro x hx
    simp only [accepting_merge, List.mem_append]
    exact .inr (List.mem_map.mpr ⟨x, hx, rfl⟩)
  · intro tr htr
    simp only [transitions_merge, List.mem_append]
    exact .inl htr
  · intro x hx
    simp only [accepting_merge, List.mem_append]
    exact .inl hx

/-- C7: permuting the alternatives of an alternation node never changes
the accepted language of the translated automaton. -/
theorem C7_alternation_perm (asts asts2 : List Ast) (A A2 : Automaton) (w : List Char)
    (hperm : asts.Perm asts2)
    (hA : build_tree (.Alternation asts) = .ok A)
    (hA2 : build_tree (.Alternation asts2) = .ok A2) :
    Accepts A w ↔ Accepts A2 w := by
  rw [build_tree_alternation_lang asts A hA w, build_tree_alternation_lang asts2 A2 hA2 w]
  constructor
  · rintro ⟨ast, hast, f, heq, hacc⟩
    exact ⟨ast, hperm.mem_iff.mp hast, f, heq, hacc⟩
  · rintro ⟨ast, hast, f, heq, hacc⟩
    exact ⟨ast, hperm.mem_iff.mpr hast, f, heq, hacc⟩

/-- C7, witness: the alternations `a|b` and `b|a` accept the same words,
instantiated at the word "a". -/
theorem C7_witness : Accepts altAB ['a'] ↔ Accepts altBA ['a'] :=
  C7_alternation_perm [.Literal 'a', .Literal 'b'] [.Literal 'b', .Literal 'a']
    altAB altBA ['a'] (List.Perm.swap _ _ _) rfl rfl

/-- C8: translating a group node is a transparent pass-through: the
fragment equals the contained sub-expression's fragment, unchanged. -/
theorem C8_group_passthrough (ast : Ast) :
    build_tree (.Group ast) = build_tree ast := by
  simp only [build_tree]

set_option maxRecDepth 10000 in
/-- C9, counterexample: for the reversed range from `Ā` (code 256) to `z`
(code 122) — so `code(start) > code(end)` — the `as u8` truncation turns
the start code into 0: the fragment has 123 transitions rather than none,
and its language is not empty (it accepts "a"). -/
theorem C9_counterexample :
    'z'.toNat < (Char.ofNat 256).toNat ∧
    build_class_set_range (Char.ofNat 256) 'z' =
      .ok ⟨2, (List.range' 0 123).map (fun n => (0, 1, some (Char.ofNat n))), 0, [1]⟩ ∧
    Accepts ⟨2, (List.range' 0 123).map (fun n => (0, 1, some (Char.ofNat n))), 0, [1]⟩ ['a'] :=
  ⟨by decide, rfl, ⟨1, .symb (by decide) (.refl 1), by decide⟩⟩

/-- C9 (amended): for a reversed range both of whose endpoint codes are
below 256 (so the `u8` truncation is the identity), translation does not
fail: it returns the two-state fragment with no transitions at all, whose
language is empty. -/
theorem C9_reversed_range (s e : Char) (h1 : e.toNat < s.toNat) (h2 : s.toNat < 256) :
    build_class_set_range s e = .ok ⟨2, [], 0, [1]⟩ ∧
    Lang ⟨2, [], 0, [1]⟩ = ∅ := by
  constructor
  · show build_literal ((List.range' (s.toNat % 256) (e.toNat % 256 + 1 - s.toNat % 256)).map
      Char.ofNat) = _
    rw [Nat.mod_eq_of_lt h2, Nat.mod_eq_of_lt (by omega)]
    rw [show e.toNat + 1 - s.toNat = 0 by omega]
    rw [show List.range' s.toNat 0 = [] from rfl]
    rw [build_literal_eq]
    rfl
  · exact lang_empty_of_no_transitions _ rfl (by decide)

/-- C9, witness: the amended claim instantiated at the reversed range
`b`–`a`. -/
theorem C9_witness : build_class_set_range 'b' 'a' = .ok ⟨2, [], 0, [1]⟩ :=
  (C9_reversed_range 'b' 'a' (by decide) (by decide)).1

/-- C10: translating the empty pattern fails: the external parser accepts
it and produces the `Empty` AST node, and `build_tree` rejects that node
with an `UnsupportedAst` error carrying it. -/
theorem C10_translate_empty : translate [] = .error (.UnsupportedAst .Empty) := rfl

end RegexNfa
